import Mathlib

/-!
# Verification of FontToBin (src/FontToBin.c)

A shallow embedding of the C program `FontToBin.c`, which converts a 2-colour
bitmap of a 64x2 ASCII font sheet into a text file of binary glyph rows.

Modelling conventions:
* `uint32_t` values are natural numbers; an assignment to a `uint32_t`
  lvalue reduces the assigned expression modulo `2 ^ 32`.
* C bitwise operators `>>`, `<<`, `&`, `|` become `>>>`, `<<<`, `&&&`, `|||`
  on `Nat`, with the explicit `% 2 ^ 32` reduction wherever the C result is
  stored into a 32-bit object.
* The pixel buffer `uint32_t* data` is a function `Nat → Nat` giving the
  32-bit word at each index.
* The output file is modelled as the list of characters written to it, in
  write order; `fprintf(bin, "%d", b)` for a bit `b` writes `'0'` or `'1'`.
-/

namespace FontToBin

/-- Embeds `swapEndian32` (src/FontToBin.c lines 38-41):
`*x = ((*x >> 24) | ((*x << 8) & 0x00FF0000) | ((*x >> 8) & 0x0000FF00) | (*x << 24))`.
The final `<< 24` wraps modulo `2 ^ 32` because the result is stored in a
`uint32_t`; the two masked middle terms are below `2 ^ 32` already, as is
`*x >> 24` for a 32-bit `*x`. -/
def swapEndian32 (x : Nat) : Nat :=
  (x >>> 24) ||| ((x <<< 8) &&& 0x00FF0000) ||| ((x >>> 8) &&& 0x0000FF00) |||
    ((x <<< 24) % 2 ^ 32)

/-- The `charWidth` digit characters that one call of `toBinary`
(src/FontToBin.c lines 29-36) writes before the newline: for
`i = width-1` down to `0` it prints `(n >> i) & 1`, so the character at
position `j` (0-based) shows bit `width - 1 - j` of `n`. -/
def binDigits (n width : Nat) : List Char :=
  (List.range width).map fun j =>
    if (n >>> (width - 1 - j)) &&& 1 = 1 then '1' else '0'

/-- Embeds `toBinary` (src/FontToBin.c lines 29-36) as the list of characters
it writes to the output file: `width` binary digits, then a newline. -/
def toBinary (n width : Nat) : List Char :=
  binDigits n width ++ ['\n']

/-- Embeds line 50 of `assembleCharacter` (src/FontToBin.c):
`int bits = ((ASCII % 64) * charWidth) + (ASCII < 64 ? 0 : charHeight * dwordsPerLine * 32);`
the bit index, within the flattened pixel buffer, of the upper-left pixel of
the glyph for code `ASCII`. -/
def charStartBit (ASCII charWidth charHeight dwordsPerLine : Nat) : Nat :=
  (ASCII % 64) * charWidth +
    (if ASCII < 64 then 0 else charHeight * dwordsPerLine * 32)

/-- One iteration of the `!onBoundary` loop of `assembleCharacter`
(src/FontToBin.c lines 58-65), for the scanline whose first pixel sits at bit
index `bits`: with `dword = bits / 32`, `offset = bits % 32` and
`mask = (1 << charWidth) - 1`, the stored row value is
`(data[dword] >> (32 - charWidth - offset)) & mask`. -/
def rowSingle (data : Nat → Nat) (charWidth bits : Nat) : Nat :=
  let dword := bits / 32
  let offset := bits % 32
  let mask := ((1 <<< charWidth) - 1) % 2 ^ 32
  (data dword >>> (32 - charWidth - offset)) &&& mask

/-- One iteration of the boundary-straddling loop of `assembleCharacter`
(src/FontToBin.c lines 69-85): `tmp1` keeps the low `32 - offset` bits of
`data[dword]`, `tmp2` keeps the high `charWidth - (32 - offset)` bits of
`data[dword+1]` (mask built by shifting left, result left unshifted), and the
row value is `(tmp1 << (charWidth - (32 - offset))) | (tmp2 >> (32 - (charWidth - (32 - offset))))`. -/
def rowStraddle (data : Nat → Nat) (charWidth bits : Nat) : Nat :=
  let dword := bits / 32
  let offset := bits % 32
  let mask1 := ((1 <<< (32 - offset)) - 1) % 2 ^ 32
  let tmp1 := data dword &&& mask1
  let mask2 := (((1 <<< (charWidth - (32 - offset))) - 1) <<<
      (32 - (charWidth - (32 - offset)))) % 2 ^ 32
  let tmp2 := data (dword + 1) &&& mask2
  ((tmp1 <<< (charWidth - (32 - offset))) % 2 ^ 32) |||
    (tmp2 >>> (32 - (charWidth - (32 - offset))))

/-- Embeds `assembleCharacter` (src/FontToBin.c lines 43-87), returning the
`charHeight` row values stored into `character[0..charHeight-1]`.
The C loop advances `bits += dwordsPerLine * 32` once per scanline and
recomputes `dword = bits / 32`, `offset = bits % 32` from it, so iteration
`i` reads the scanline starting at bit `bits + i * (dwordsPerLine * 32)`;
`onBoundary` is computed once, before the loop, from the initial offset. -/
def assembleCharacter (data : Nat → Nat)
    (ASCII charWidth charHeight dwordsPerLine : Nat) : List Nat :=
  let bits := charStartBit ASCII charWidth charHeight dwordsPerLine
  let offset := bits % 32
  let onBoundary : Bool := decide (32 < offset + charWidth)
  (List.range charHeight).map fun i =>
    if onBoundary then rowStraddle data charWidth (bits + i * (dwordsPerLine * 32))
    else rowSingle data charWidth (bits + i * (dwordsPerLine * 32))

/-- Embeds the pixel-loading loop of `main` (src/FontToBin.c lines 131-140).
`file k` is the `k`-th 32-bit word of the file's pixel data, in read order
(the value `fread` deposits on a little-endian machine).  The loop runs `i`
from `imageHeight - 1` down to `0` and `j` from `0` to `dwordsPerLine - 1`,
so the store into `charData[i*dwordsPerLine + j]` consumes read number
`(imageHeight - 1 - i) * dwordsPerLine + j`, byte-swapped by `swapEndian32`. -/
def loadPixels (file : Nat → Nat) (imageHeight dwordsPerLine : Nat) : Nat → Nat :=
  fun idx =>
    swapEndian32 (file ((imageHeight - 1 - idx / dwordsPerLine) * dwordsPerLine +
      idx % dwordsPerLine))

/-- The character stream `main` writes to `font.bin` on a successful run
(src/FontToBin.c lines 151-156): for `i = 0..127`, for `j = 0..charHeight-1`,
one `toBinary(character[j], charWidth)` line. -/
def fontBinStream (data : Nat → Nat) (charWidth charHeight dwordsPerLine : Nat) :
    List Char :=
  ((List.range 128).map fun i =>
    ((assembleCharacter data i charWidth charHeight dwordsPerLine).map fun v =>
      toBinary v charWidth).flatten).flatten

/-- Splits a character stream into its lines: each `'\n'` terminates a line.
A stream that ends in `'\n'` yields no trailing empty line. -/
def splitLines (cs : List Char) : List (List Char) :=
  cs.foldr
    (fun c acc =>
      if c = '\n' then [] :: acc
      else
        match acc with
        | [] => [[c]]
        | l :: ls => (c :: l) :: ls)
    []

/-- Which of the fallible steps of `main` succeed in a given run:
`fopen(argv[1], "r")`, `fopen("font.bin", "w")`, `malloc` of the pixel
buffer, `malloc` of the per-glyph row buffer. -/
structure Env where
  fontOpenOk : Bool
  binCreateOk : Bool
  charDataAllocOk : Bool
  characterAllocOk : Bool

/-- Observable outcome of one run of `main` (src/FontToBin.c lines 89-163):
its exit status, the diagnostics printed to `stderr`, and, for each of the
four resources, whether it was acquired and whether it was released before
termination. -/
structure MainOutcome where
  exitCode : Nat
  stderrLines : List String
  fontAcquired : Bool
  fontReleased : Bool
  binAcquired : Bool
  binReleased : Bool
  charDataAcquired : Bool
  charDataReleased : Bool
  characterAcquired : Bool
  characterReleased : Bool

/-- Embeds the control flow of `main` (src/FontToBin.c lines 89-163):
each failing step prints one diagnostic to `stderr`, closes/frees exactly the
resources already acquired (lines 99-109, 124-129, 142-149) and returns 1;
the success path frees both buffers, closes both files and returns 0. -/
def mainRun (env : Env) : MainOutcome :=
  if ¬ env.fontOpenOk then
    ⟨1, ["Error opening source font file."],
      false, false, false, false, false, false, false, false⟩
  else if ¬ env.binCreateOk then
    ⟨1, ["Error creating destination bin file font.bin."],
      true, true, false, false, false, false, false, false⟩
  else if ¬ env.charDataAllocOk then
    ⟨1, ["Error allocating memory."],
      true, true, true, true, false, false, false, false⟩
  else if ¬ env.characterAllocOk then
    ⟨1, ["Error allocating memory."],
      true, true, true, true, true, true, false, false⟩
  else
    ⟨0, [], true, true, true, true, true, true, true, true⟩

/-! ## Specification-level bit semantics

`bitAt data b` is the `b`-th pixel of the flattened buffer, counting bits
MSB-first inside each 32-bit word, and `bitsValue data start w` is the value
of the `w` consecutive pixels starting at `start`, first pixel in the most
significant position.  These definitions follow the spec's reading of the
buffer and are compared against the code's extraction paths. -/

/-- Big-endian value of a list of bits (or digits base 2). -/
def beValue (l : List Nat) : Nat :=
  l.foldl (fun a b => a * 2 + b) 0

/-- The `b`-th pixel of the flattened pixel buffer: bit `31 - b % 32` of
word `b / 32` (bit 31 of a word is its leftmost pixel). -/
def bitAt (data : Nat → Nat) (b : Nat) : Nat :=
  (data (b / 32) >>> (31 - b % 32)) &&& 1

/-- Value of the `w` consecutive pixels starting at bit index `start`,
first pixel in the MSB position of the result. -/
def bitsValue (data : Nat → Nat) (start w : Nat) : Nat :=
  beValue ((List.range w).map fun k => bitAt data (start + k))

/-! ## Bit-arithmetic lemmas -/

/-- Conjunction with a shifted all-ones mask extracts a bit field:
`a & ((2^w - 1) << m)` keeps bits `m .. m+w-1` of `a` in place. -/
lemma and_mask_shift (a w m : Nat) :
    a &&& ((2 ^ w - 1) <<< m) = a / 2 ^ m % 2 ^ w * 2 ^ m := by
  apply Nat.eq_of_testBit_eq
  intro i
  rw [← Nat.shiftLeft_eq, ← Nat.shiftRight_eq_div_pow]
  simp only [Nat.testBit_and, Nat.testBit_shiftLeft, Nat.testBit_mod_two_pow,
    Nat.testBit_shiftRight, Nat.testBit_two_pow_sub_one]
  rcases Nat.lt_or_ge i m with h | h
  · simp [Nat.not_le.mpr h]
  · have hmi : m + (i - m) = i := by omega
    cases ht : a.testBit i <;> simp [h, hmi, ht]

lemma beValue_nil : beValue [] = 0 := rfl

lemma beValue_foldl (l : List Nat) (acc : Nat) :
    l.foldl (fun a b => a * 2 + b) acc = acc * 2 ^ l.length + beValue l := by
  induction l generalizing acc with
  | nil => simp [beValue]
  | cons b l ih =>
    have hb : beValue (b :: l) = l.foldl (fun a b => a * 2 + b) b := by
      simp [beValue]
    simp only [List.foldl_cons, List.length_cons, hb, ih (acc * 2 + b), ih b]
    ring

lemma beValue_append (l1 l2 : List Nat) :
    beValue (l1 ++ l2) = beValue l1 * 2 ^ l2.length + beValue l2 := by
  have : beValue (l1 ++ l2) = l2.foldl (fun a b => a * 2 + b) (beValue l1) := by
    simp [beValue, List.foldl_append]
  rw [this, beValue_foldl]

/-- Reading the bits of `n` most-significant-first and reassembling them
recovers `n % 2 ^ w`. -/
lemma beValue_reconstruct (w : Nat) : ∀ n : Nat,
    beValue ((List.range w).map fun k => (n >>> (w - 1 - k)) &&& 1) = n % 2 ^ w := by
  induction w with
  | zero => intro n; simp [beValue, Nat.mod_one]
  | succ w ih =>
    intro n
    rw [List.range_succ, List.map_append, beValue_append]
    have h1 : ((List.range w).map fun k => (n >>> (w + 1 - 1 - k)) &&& 1)
        = (List.range w).map fun k => ((n >>> 1) >>> (w - 1 - k)) &&& 1 := by
      apply List.map_congr_left
      intro k hk
      rw [List.mem_range] at hk
      rw [← Nat.shiftRight_add]
      congr 2
      omega
    rw [h1, ih (n >>> 1)]
    have h2 : beValue [(n >>> (w + 1 - 1 - w)) &&& 1] = n % 2 := by
      simp [beValue, Nat.and_one_is_mod]
    simp only [List.map_cons, List.map_nil, List.length_cons, List.length_nil, h2,
      pow_one, Nat.zero_add]
    rw [Nat.shiftRight_one, pow_succ, mul_comm (2 ^ w) 2, Nat.mod_mul]
    ring

/-- A list of bits has a `beValue` below `2 ^ length`. -/
lemma beValue_lt_two_pow (l : List Nat) (h : ∀ x ∈ l, x < 2) :
    beValue l < 2 ^ l.length := by
  induction l with
  | nil => simp [beValue]
  | cons b t ih =>
    have hb : beValue (b :: t) = b * 2 ^ t.length + beValue t := by
      have : beValue (b :: t) = t.foldl (fun a b => a * 2 + b) b := by simp [beValue]
      rw [this, beValue_foldl]
    have h1 : b < 2 := h b (List.mem_cons_self b t)
    have h2 : beValue t < 2 ^ t.length := ih fun x hx => h x (List.mem_cons_of_mem b hx)
    rw [hb, List.length_cons, pow_succ]
    nlinarith

/-- Extracting bit `length - 1 - j` from a `beValue` of bits recovers the
list element at position `length - 1 - j` (bit `j` counts from the LSB). -/
lemma beValue_getBit (l : List Nat) (h : ∀ x ∈ l, x < 2) (j : Nat)
    (hj : j < l.length) :
    (beValue l >>> j) &&& 1 = l.getD (l.length - 1 - j) 0 := by
  induction l with
  | nil => simp at hj
  | cons b t ih =>
    have hb : beValue (b :: t) = b * 2 ^ t.length + beValue t := by
      have : beValue (b :: t) = t.foldl (fun a b => a * 2 + b) b := by simp [beValue]
      rw [this, beValue_foldl]
    have hblt : b < 2 := h b (List.mem_cons_self b t)
    have htlt : beValue t < 2 ^ t.length := by
      exact beValue_lt_two_pow t fun x hx => h x (List.mem_cons_of_mem b hx)
    rcases Nat.lt_or_ge j t.length with hjt | hjt
    · have key : (beValue (b :: t) >>> j) &&& 1 = (beValue t >>> j) &&& 1 := by
        rcases Nat.exists_eq_add_of_lt hjt with ⟨d, hd⟩
        have hsplit : b * 2 ^ t.length + beValue t
            = 2 ^ j * (2 * (b * 2 ^ d)) + beValue t := by
          rw [hd]; ring
        rw [hb, Nat.and_one_is_mod, Nat.and_one_is_mod, Nat.shiftRight_eq_div_pow,
          Nat.shiftRight_eq_div_pow, hsplit, Nat.mul_add_div (Nat.two_pow_pos j),
          Nat.mul_add_mod]
      rw [key, ih (fun x hx => h x (List.mem_cons_of_mem b hx)) hjt]
      have hidx : (b :: t).length - 1 - j = (t.length - 1 - j) + 1 := by
        simp only [List.length_cons]
        omega
      rw [hidx, List.getD_cons_succ]
    · have hj2 : j = t.length := by
        simp only [List.length_cons] at hj
        omega
      subst hj2
      rw [hb, Nat.and_one_is_mod, Nat.shiftRight_eq_div_pow, mul_comm b (2 ^ t.length),
        Nat.mul_add_div (Nat.two_pow_pos t.length), Nat.div_eq_of_lt htlt,
        Nat.add_zero, Nat.mod_eq_of_lt hblt]
      have hidx : (b :: t).length - 1 - t.length = 0 := by
        simp only [List.length_cons]
        omega
      rw [hidx, List.getD_cons_zero]

/-! ## The two extraction paths compute `bitsValue` -/

/-- Splitting a pixel run at an intermediate position. -/
lemma bitsValue_split (data : Nat → Nat) (b u v : Nat) :
    bitsValue data b (u + v) = bitsValue data b u * 2 ^ v + bitsValue data (b + u) v := by
  unfold bitsValue
  rw [List.range_add, List.map_append, beValue_append, List.map_map]
  congr 2
  · simp
  · apply List.map_congr_left
    intro k hk
    simp only [Function.comp_apply]
    congr 1
    omega

/-- A pixel run that stays inside one 32-bit word is that word shifted right
and reduced: the generic form behind the single-word path. -/
lemma bitsValue_single (data : Nat → Nat) (bits w : Nat) (h : bits % 32 + w ≤ 32) :
    bitsValue data bits w = data (bits / 32) >>> (32 - w - bits % 32) % 2 ^ w := by
  unfold bitsValue
  have hmap : ((List.range w).map fun k => bitAt data (bits + k))
      = (List.range w).map fun k =>
        ((data (bits / 32) >>> (32 - w - bits % 32)) >>> (w - 1 - k)) &&& 1 := by
    apply List.map_congr_left
    intro k hk
    rw [List.mem_range] at hk
    have hdiv : (bits + k) / 32 = bits / 32 := by omega
    have hmod : (bits + k) % 32 = bits % 32 + k := by omega
    unfold bitAt
    rw [hdiv, hmod, ← Nat.shiftRight_add]
    congr 2
    omega
  rw [hmap, beValue_reconstruct]

/-- The single-word path of `assembleCharacter` extracts exactly the
`charWidth` pixels starting at bit `bits`, first pixel in the MSB position. -/
lemma rowSingle_spec (data : Nat → Nat) (w bits : Nat) (h : bits % 32 + w ≤ 32) :
    rowSingle data w bits = bitsValue data bits w := by
  have hw : w ≤ 32 := by omega
  have hmask : ((1 <<< w) - 1) % 2 ^ 32 = 2 ^ w - 1 := by
    rw [Nat.shiftLeft_eq, one_mul, Nat.mod_eq_of_lt]
    have h2 : 2 ^ w ≤ 2 ^ 32 := Nat.pow_le_pow_right (by norm_num) hw
    omega
  simp only [rowSingle, hmask, Nat.and_pow_two_sub_one_eq_mod]
  rw [bitsValue_single data bits w h]

/-- The boundary-straddling path of `assembleCharacter` also extracts exactly
the `charWidth` pixels starting at bit `bits`: the two masked fragments
concatenate bit-exactly, first pixel in the MSB position. -/
lemma rowStraddle_spec (data : Nat → Nat) (w bits : Nat)
    (h1 : 32 < bits % 32 + w) (h2 : w ≤ 32) :
    rowStraddle data w bits = bitsValue data bits w := by
  set r := bits % 32 with hr
  set q := bits / 32 with hq
  have hr31 : r < 32 := by omega
  have hr1 : 1 ≤ r := by omega
  have hs1 : 1 ≤ w - (32 - r) := by omega
  have hs31 : w - (32 - r) ≤ 31 := by omega
  set s := w - (32 - r) with hs
  -- the split of the target into the two word fragments
  have hw : w = (32 - r) + s := by omega
  have hqbits : bits = 32 * q + r := by omega
  have hsplit : bitsValue data bits w
      = bitsValue data bits (32 - r) * 2 ^ s + bitsValue data (bits + (32 - r)) s := by
    rw [hw, bitsValue_split]
  have hpiece1 : bitsValue data bits (32 - r) = data q % 2 ^ (32 - r) := by
    rw [bitsValue_single data bits (32 - r) (by omega)]
    have hz : 32 - (32 - r) - bits % 32 = 0 := by omega
    rw [← hq, hz, Nat.shiftRight_zero]
  have hpiece2 : bitsValue data (bits + (32 - r)) s
      = data (q + 1) >>> (32 - s) % 2 ^ s := by
    have hdiv : (bits + (32 - r)) / 32 = q + 1 := by omega
    have hmod : (bits + (32 - r)) % 32 = 0 := by omega
    rw [bitsValue_single data (bits + (32 - r)) s (by omega), hdiv, hmod,
      Nat.sub_zero]
  -- the code's two masked fragments
  have hmask1 : ((1 <<< (32 - r)) - 1) % 2 ^ 32 = 2 ^ (32 - r) - 1 := by
    rw [Nat.shiftLeft_eq, one_mul, Nat.mod_eq_of_lt]
    have h3 : 2 ^ (32 - r) ≤ 2 ^ 32 := Nat.pow_le_pow_right (by norm_num) (by omega)
    omega
  have hones : (1 : Nat) <<< s = 2 ^ s := by rw [Nat.shiftLeft_eq, one_mul]
  have hmask2 : (((1 <<< s) - 1) <<< (32 - s)) % 2 ^ 32 = (2 ^ s - 1) <<< (32 - s) := by
    rw [hones]
    rw [Nat.shiftLeft_eq, Nat.mod_eq_of_lt, ← Nat.shiftLeft_eq]
    have e1 : 2 ^ s - 1 < 2 ^ s := by
      have := Nat.two_pow_pos s
      omega
    calc (2 ^ s - 1) * 2 ^ (32 - s) < 2 ^ s * 2 ^ (32 - s) :=
          (Nat.mul_lt_mul_right (Nat.two_pow_pos _)).mpr e1
      _ = 2 ^ (s + (32 - s)) := by rw [pow_add]
      _ = 2 ^ 32 := by congr 1; omega
  have htmp1 : data q &&& (2 ^ (32 - r) - 1) = data q % 2 ^ (32 - r) :=
    Nat.and_pow_two_sub_one_eq_mod _ _
  have htmp2 : (data (q + 1) &&& ((2 ^ s - 1) <<< (32 - s))) >>> (32 - s)
      = data (q + 1) >>> (32 - s) % 2 ^ s := by
    rw [and_mask_shift, Nat.shiftRight_eq_div_pow, Nat.shiftRight_eq_div_pow,
      Nat.mul_div_cancel _ (Nat.two_pow_pos _)]
  -- assemble
  simp only [rowStraddle, ← hr, ← hq, ← hs, hmask1, hmask2, htmp1, htmp2]
  have hshift : (data q % 2 ^ (32 - r)) <<< s % 2 ^ 32
      = (data q % 2 ^ (32 - r)) * 2 ^ s := by
    rw [Nat.shiftLeft_eq, Nat.mod_eq_of_lt]
    calc (data q % 2 ^ (32 - r)) * 2 ^ s < 2 ^ (32 - r) * 2 ^ s :=
          (Nat.mul_lt_mul_right (Nat.two_pow_pos _)).mpr
            (Nat.mod_lt _ (Nat.two_pow_pos _))
      _ = 2 ^ ((32 - r) + s) := by rw [pow_add]
      _ ≤ 2 ^ 32 := Nat.pow_le_pow_right (by norm_num) (by omega)
  rw [hshift, hsplit, hpiece1, hpiece2]
  rw [mul_comm (data q % 2 ^ (32 - r)) (2 ^ s), ← Nat.mul_add_lt_is_or, mul_comm]
  exact Nat.mod_lt _ (Nat.two_pow_pos _)

/-- Row `i` of `assembleCharacter`, as the code computes it: the branch is
chosen once from the initial offset, and scanline `i` starts at bit
`bits + i * (dwordsPerLine * 32)`. -/
lemma assembleCharacter_getElem (data : Nat → Nat) (A cw ch d i : Nat) (hi : i < ch) :
    (assembleCharacter data A cw ch d)[i]? =
      some (if 32 < charStartBit A cw ch d % 32 + cw
        then rowStraddle data cw (charStartBit A cw ch d + i * (d * 32))
        else rowSingle data cw (charStartBit A cw ch d + i * (d * 32))) := by
  simp only [assembleCharacter, List.getElem?_map, List.getElem?_range hi,
    Option.map_some']
  by_cases hb : 32 < charStartBit A cw ch d % 32 + cw <;> simp [hb]

/-- The offset within a word is the same for every scanline of one glyph:
advancing by whole image rows moves by a multiple of 32 bits. -/
lemma scanline_offset_const (bits d i : Nat) :
    (bits + i * (d * 32)) % 32 = bits % 32 := by
  have : i * (d * 32) = i * d * 32 := by ring
  rw [this, Nat.add_mul_mod_self_right]

/-- Row `i` of `assembleCharacter` equals the `bitsValue` of the `charWidth`
pixels of scanline `i` of the glyph, whichever branch the code takes. -/
lemma assembleCharacter_getElem_bitsValue (data : Nat → Nat) (A cw ch d i : Nat)
    (hi : i < ch) (hcw : cw ≤ 32) :
    (assembleCharacter data A cw ch d)[i]? =
      some (bitsValue data (charStartBit A cw ch d + i * (d * 32)) cw) := by
  rw [assembleCharacter_getElem data A cw ch d i hi]
  set bits := charStartBit A cw ch d with hbits
  have hoff : (bits + i * (d * 32)) % 32 = bits % 32 := scanline_offset_const bits d i
  by_cases hb : 32 < bits % 32 + cw
  · rw [if_pos hb, rowStraddle_spec data cw _ (by rw [hoff]; exact hb) hcw]
  · rw [if_neg hb, rowSingle_spec data cw _ (by rw [hoff]; omega)]

/-! ## swapEndian32 in terms of the bytes of its argument -/

/-- For a 32-bit input, `swapEndian32` produces the number whose bytes,
from least to most significant, are the input's bytes from most to least
significant. -/
lemma swapEndian32_eq {x : Nat} (hx : x < 2 ^ 32) :
    swapEndian32 x = x / 2 ^ 24 + x / 2 ^ 16 % 2 ^ 8 * 2 ^ 8 +
      x / 2 ^ 8 % 2 ^ 8 * 2 ^ 16 + x % 2 ^ 8 * 2 ^ 24 := by
  have hm1 : (0x00FF0000 : Nat) = (2 ^ 8 - 1) <<< 16 := by
    rw [Nat.shiftLeft_eq]; norm_num
  have hm2 : (0x0000FF00 : Nat) = (2 ^ 8 - 1) <<< 8 := by
    rw [Nat.shiftLeft_eq]; norm_num
  have ht1 : x >>> 24 = x / 2 ^ 24 := Nat.shiftRight_eq_div_pow x 24
  have ht2 : (x <<< 8) &&& ((2 ^ 8 - 1) <<< 16) = x / 2 ^ 8 % 2 ^ 8 * 2 ^ 16 := by
    rw [and_mask_shift, Nat.shiftLeft_eq]
    congr 2
    rw [show (2 : Nat) ^ 16 = 2 ^ 8 * 2 ^ 8 by norm_num, ← Nat.div_div_eq_div_mul,
      Nat.mul_div_cancel _ (Nat.two_pow_pos 8)]
  have ht3 : (x >>> 8) &&& ((2 ^ 8 - 1) <<< 8) = x / 2 ^ 16 % 2 ^ 8 * 2 ^ 8 := by
    rw [and_mask_shift, Nat.shiftRight_eq_div_pow]
    congr 2
    rw [Nat.div_div_eq_div_mul]
    norm_num
  have ht4 : (x <<< 24) % 2 ^ 32 = x % 2 ^ 8 * 2 ^ 24 := by
    rw [Nat.shiftLeft_eq, show (2 : Nat) ^ 32 = 2 ^ 8 * 2 ^ 24 by norm_num,
      Nat.mul_mod_mul_right]
  rw [swapEndian32, hm1, hm2, ht1, ht2, ht3, ht4]
  have hp3 : x / 2 ^ 24 < 2 ^ 8 := by omega
  have hp1 : x / 2 ^ 8 % 2 ^ 8 < 2 ^ 8 := Nat.mod_lt _ (by norm_num)
  have hp2 : x / 2 ^ 16 % 2 ^ 8 < 2 ^ 8 := Nat.mod_lt _ (by norm_num)
  have hp0 : x % 2 ^ 8 < 2 ^ 8 := Nat.mod_lt _ (by norm_num)
  set p3 := x / 2 ^ 24 with hsp3
  set p1 := x / 2 ^ 8 % 2 ^ 8 with hsp1
  set p2 := x / 2 ^ 16 % 2 ^ 8 with hsp2
  set p0 := x % 2 ^ 8 with hsp0
  rw [Nat.lor_comm _ (p0 * 2 ^ 24), Nat.lor_assoc, Nat.lor_comm p3 _, Nat.lor_assoc]
  have e1 : p2 * 2 ^ 8 ||| p3 = 2 ^ 8 * p2 + p3 := by
    rw [mul_comm]
    exact (Nat.mul_add_lt_is_or (by omega) p2).symm
  have e2 : p1 * 2 ^ 16 ||| (2 ^ 8 * p2 + p3) = 2 ^ 16 * p1 + (2 ^ 8 * p2 + p3) := by
    rw [mul_comm]
    exact (Nat.mul_add_lt_is_or (by omega) p1).symm
  have e3 : p0 * 2 ^ 24 ||| (2 ^ 16 * p1 + (2 ^ 8 * p2 + p3))
      = 2 ^ 24 * p0 + (2 ^ 16 * p1 + (2 ^ 8 * p2 + p3)) := by
    rw [mul_comm]
    exact (Nat.mul_add_lt_is_or (by omega) p0).symm
  rw [e1, e2, e3]
  ring

/-! ## Claims -/

lemma swapEndian32_lt {x : Nat} (hx : x < 2 ^ 32) : swapEndian32 x < 2 ^ 32 := by
  have h1 := swapEndian32_eq hx
  omega

lemma swapEndian32_byte0 {x : Nat} (hx : x < 2 ^ 32) :
    swapEndian32 x % 2 ^ 8 = x / 2 ^ 24 := by
  have h1 := swapEndian32_eq hx
  omega

lemma swapEndian32_div8 {x : Nat} (hx : x < 2 ^ 32) :
    swapEndian32 x / 2 ^ 8
      = x / 2 ^ 16 % 2 ^ 8 + x / 2 ^ 8 % 2 ^ 8 * 2 ^ 8 + x % 2 ^ 8 * 2 ^ 16 := by
  have h1 := swapEndian32_eq hx
  omega

lemma swapEndian32_byte1 {x : Nat} (hx : x < 2 ^ 32) :
    swapEndian32 x / 2 ^ 8 % 2 ^ 8 = x / 2 ^ 16 % 2 ^ 8 := by
  have hq1 := swapEndian32_div8 hx
  omega

lemma swapEndian32_div16 {x : Nat} (hx : x < 2 ^ 32) :
    swapEndian32 x / 2 ^ 16 = x / 2 ^ 8 % 2 ^ 8 + x % 2 ^ 8 * 2 ^ 8 := by
  have hq1 := swapEndian32_div8 hx
  have hc : swapEndian32 x / 2 ^ 16 = swapEndian32 x / 2 ^ 8 / 2 ^ 8 := by omega
  omega

lemma swapEndian32_byte2 {x : Nat} (hx : x < 2 ^ 32) :
    swapEndian32 x / 2 ^ 16 % 2 ^ 8 = x / 2 ^ 8 % 2 ^ 8 := by
  have hq2 := swapEndian32_div16 hx
  omega

lemma swapEndian32_byte3 {x : Nat} (hx : x < 2 ^ 32) :
    swapEndian32 x / 2 ^ 24 = x % 2 ^ 8 := by
  have hq2 := swapEndian32_div16 hx
  have hc : swapEndian32 x / 2 ^ 24 = swapEndian32 x / 2 ^ 16 / 2 ^ 8 := by omega
  omega

/-- `swapEndian32` maps byte `3 - k` of a 32-bit input to byte `k` of its
output, for each of the four byte positions `k`. -/
lemma swapEndian32_byte_rev {x : Nat} (hx : x < 2 ^ 32) :
    ∀ k, k < 4 →
      swapEndian32 x / 2 ^ (8 * k) % 2 ^ 8 = x / 2 ^ (8 * (3 - k)) % 2 ^ 8 := by
  intro k hk
  interval_cases k
  · show swapEndian32 x / 2 ^ 0 % 2 ^ 8 = x / 2 ^ 24 % 2 ^ 8
    have h0 := swapEndian32_byte0 hx
    omega
  · show swapEndian32 x / 2 ^ 8 % 2 ^ 8 = x / 2 ^ 16 % 2 ^ 8
    exact swapEndian32_byte1 hx
  · show swapEndian32 x / 2 ^ 16 % 2 ^ 8 = x / 2 ^ 8 % 2 ^ 8
    exact swapEndian32_byte2 hx
  · show swapEndian32 x / 2 ^ 24 % 2 ^ 8 = x / 2 ^ 0 % 2 ^ 8
    have h3 := swapEndian32_byte3 hx
    omega

/-- Claim C9: `swapEndian32` exactly reverses the four bytes of a 32-bit
word (byte `k` of the result is byte `3 - k` of the input), and applying it
twice gives the input back. -/
theorem swapEndian32_byte_reversal_involutive (x : Nat) (hx : x < 2 ^ 32) :
    (∀ k, k < 4 →
        swapEndian32 x / 2 ^ (8 * k) % 2 ^ 8 = x / 2 ^ (8 * (3 - k)) % 2 ^ 8) ∧
      swapEndian32 (swapEndian32 x) = x := by
  refine ⟨swapEndian32_byte_rev hx, ?_⟩
  have hlt := swapEndian32_lt hx
  have h2 := swapEndian32_eq hlt
  rw [swapEndian32_byte3 hx, swapEndian32_byte2 hx, swapEndian32_byte1 hx,
    swapEndian32_byte0 hx] at h2
  have hcx1 : x / 2 ^ 16 = x / 2 ^ 8 / 2 ^ 8 := by omega
  have hcx2 : x / 2 ^ 24 = x / 2 ^ 8 / 2 ^ 8 / 2 ^ 8 := by omega
  omega

/-- Witness for C9 at `x = 0x01020304`. -/
theorem swapEndian32_byte_reversal_involutive_witness :
    (0x01020304 : Nat) < 2 ^ 32 ∧
      ((∀ k, k < 4 →
          swapEndian32 0x01020304 / 2 ^ (8 * k) % 2 ^ 8 =
            (0x01020304 : Nat) / 2 ^ (8 * (3 - k)) % 2 ^ 8) ∧
        swapEndian32 (swapEndian32 0x01020304) = 0x01020304) :=
  ⟨by norm_num, swapEndian32_byte_reversal_involutive 0x01020304 (by norm_num)⟩

/-- Claim C6: the pixel-loading loop stores file-order row `i` into buffer
row `imageHeight - 1 - i`, with every word byte-swapped by `swapEndian32`
on the way (and `swapEndian32` reverses the word's four bytes). -/
theorem loadPixels_row_flip_and_swap (file : Nat → Nat) (H d i j : Nat)
    (hi : i < H) (hj : j < d) :
    loadPixels file H d ((H - 1 - i) * d + j) = swapEndian32 (file (i * d + j)) ∧
      (∀ x, x < 2 ^ 32 → ∀ k, k < 4 →
        swapEndian32 x / 2 ^ (8 * k) % 2 ^ 8 = x / 2 ^ (8 * (3 - k)) % 2 ^ 8) := by
  constructor
  · unfold loadPixels
    have hd0 : 0 < d := by omega
    have hdiv : ((H - 1 - i) * d + j) / d = H - 1 - i := by
      rw [mul_comm, Nat.mul_add_div hd0, Nat.div_eq_of_lt hj, Nat.add_zero]
    have hmod : ((H - 1 - i) * d + j) % d = j := by
      rw [mul_comm, Nat.mul_add_mod, Nat.mod_eq_of_lt hj]
    rw [hdiv, hmod]
    congr 2
    have : H - 1 - (H - 1 - i) = i := by omega
    rw [this]
  · intro x hx k hk
    exact swapEndian32_byte_rev hx k hk

/-- Witness for C6 at a two-row, two-words-per-row file, row 0, word 1. -/
theorem loadPixels_row_flip_and_swap_witness :
    0 < 2 ∧ 1 < 2 ∧
      (loadPixels (fun _ => 0x01020304) 2 2 ((2 - 1 - 0) * 2 + 1) =
          swapEndian32 ((fun _ => (0x01020304 : Nat)) (0 * 2 + 1)) ∧
        ∀ x, x < 2 ^ 32 → ∀ k, k < 4 →
          swapEndian32 x / 2 ^ (8 * k) % 2 ^ 8 = x / 2 ^ (8 * (3 - k)) % 2 ^ 8) :=
  ⟨by omega, by omega,
    loadPixels_row_flip_and_swap (fun _ => 0x01020304) 2 2 0 1 (by omega) (by omega)⟩

/-- Claim C7: with positive geometry, the start bit offset for ASCII code 0
is 0, and for every `c` in `[0, 63]` the start offset for `c + 64` exceeds
the one for `c` by exactly `charHeight * dwordsPerLine * 32`. -/
theorem charStartBit_base_and_half_jump (cw ch d : Nat)
    (hcw : 0 < cw) (hch : 0 < ch) (hd : 0 < d) :
    charStartBit 0 cw ch d = 0 ∧
      ∀ c, c ≤ 63 →
        charStartBit (c + 64) cw ch d = charStartBit c cw ch d + ch * d * 32 := by
  constructor
  · simp [charStartBit]
  · intro c hc
    unfold charStartBit
    have h1 : (c + 64) % 64 = c := by omega
    have h2 : c % 64 = c := by omega
    have h3 : ¬ (c + 64 < 64) := by omega
    have h4 : c < 64 := by omega
    rw [h1, h2, if_neg h3, if_pos h4]
    ring

/-- Witness for C7 at `charWidth = charHeight = dwordsPerLine = 1`, `c = 1`. -/
theorem charStartBit_base_and_half_jump_witness :
    0 < 1 ∧ charStartBit 0 1 1 1 = 0 ∧ 1 ≤ 63 ∧
      charStartBit (1 + 64) 1 1 1 = charStartBit 1 1 1 1 + 1 * 1 * 32 :=
  ⟨Nat.one_pos,
    (charStartBit_base_and_half_jump 1 1 1 Nat.one_pos Nat.one_pos Nat.one_pos).1,
    by omega,
    (charStartBit_base_and_half_jump 1 1 1 Nat.one_pos Nat.one_pos Nat.one_pos).2
      1 (by omega)⟩

/-- Claim C1: row 0 of `assembleCharacter` is computed from the absolute bit
offset `(asciiCode mod 64) * charWidth + (asciiCode < 64 ? 0 : charHeight *
dwordsPerLine * 32)`, through whichever extraction branch the initial offset
selects. -/
theorem assembleCharacter_starts_at_spec_offset (data : Nat → Nat)
    (A cw ch d : Nat) (hA : A ≤ 127) (hcw : 0 < cw) (hch : 0 < ch) (hd : 0 < d) :
    (assembleCharacter data A cw ch d)[0]? =
      some (if 32 < ((A % 64) * cw + (if A < 64 then 0 else ch * d * 32)) % 32 + cw
        then rowStraddle data cw ((A % 64) * cw + (if A < 64 then 0 else ch * d * 32))
        else rowSingle data cw ((A % 64) * cw + (if A < 64 then 0 else ch * d * 32))) := by
  rw [assembleCharacter_getElem data A cw ch d 0 hch]
  simp only [charStartBit, Nat.zero_mul, Nat.add_zero]

/-- Witness for C1 at `data = 0`, `asciiCode = 70`, geometry `8 x 2`,
`dwordsPerLine = 16`. -/
theorem assembleCharacter_starts_at_spec_offset_witness :
    70 ≤ 127 ∧ 0 < 8 ∧ 0 < 2 ∧ 0 < 16 ∧
      (assembleCharacter (fun _ => 0) 70 8 2 16)[0]? =
        some (if 32 < ((70 % 64) * 8 + (if 70 < 64 then 0 else 2 * 16 * 32)) % 32 + 8
          then rowStraddle (fun _ => 0) 8
            ((70 % 64) * 8 + (if 70 < 64 then 0 else 2 * 16 * 32))
          else rowSingle (fun _ => 0) 8
            ((70 % 64) * 8 + (if 70 < 64 then 0 else 2 * 16 * 32))) :=
  ⟨by omega, by omega, by omega, by omega,
    assembleCharacter_starts_at_spec_offset (fun _ => 0) 70 8 2 16
      (by omega) (by omega) (by omega) (by omega)⟩

/-- Modelled from the spec words of claim C10: the variant of
`assembleCharacter` that re-evaluates the straddle test
`offset + charWidth <= 32` on every scanline instead of hoisting the check
out of the loop. -/
def assembleCharacterRecheck (data : Nat → Nat)
    (ASCII charWidth charHeight dwordsPerLine : Nat) : List Nat :=
  let bits := charStartBit ASCII charWidth charHeight dwordsPerLine
  (List.range charHeight).map fun i =>
    if 32 < (bits + i * (dwordsPerLine * 32)) % 32 + charWidth
    then rowStraddle data charWidth (bits + i * (dwordsPerLine * 32))
    else rowSingle data charWidth (bits + i * (dwordsPerLine * 32))

/-- Claim C10: each scanline advance adds `dwordsPerLine * 32`, a multiple
of 32, so the within-word offset is the same for every scanline, and the
code's hoisted straddle branch is equivalent to re-checking the condition
on every scanline. -/
theorem assembleCharacter_hoisted_branch_ok (data : Nat → Nat) (A cw ch d : Nat) :
    (∀ i, (charStartBit A cw ch d + i * (d * 32)) % 32 = charStartBit A cw ch d % 32) ∧
      assembleCharacterRecheck data A cw ch d = assembleCharacter data A cw ch d := by
  constructor
  · intro i
    exact scanline_offset_const _ _ _
  · unfold assembleCharacter assembleCharacterRecheck
    apply List.map_congr_left
    intro i hi
    rw [scanline_offset_const]
    by_cases hb : 32 < charStartBit A cw ch d % 32 + cw <;> simp [hb]

/-- Claim C8: `main` exits 0 exactly when all four fallible steps succeed
and 1 exactly when one fails; every failure prints a diagnostic to the
error stream, and every acquired resource is released on every path. -/
theorem mainRun_exit_and_cleanup (env : Env) :
    ((mainRun env).exitCode = 0 ↔
      (env.fontOpenOk ∧ env.binCreateOk ∧ env.charDataAllocOk ∧
        env.characterAllocOk)) ∧
    ((mainRun env).exitCode = 1 ↔
      (¬ env.fontOpenOk ∨ ¬ env.binCreateOk ∨ ¬ env.charDataAllocOk ∨
        ¬ env.characterAllocOk)) ∧
    ((mainRun env).exitCode = 1 → (mainRun env).stderrLines ≠ []) ∧
    ((mainRun env).fontAcquired → (mainRun env).fontReleased) ∧
    ((mainRun env).binAcquired → (mainRun env).binReleased) ∧
    ((mainRun env).charDataAcquired → (mainRun env).charDataReleased) ∧
    ((mainRun env).characterAcquired → (mainRun env).characterReleased) := by
  obtain ⟨f, b, cD, cR⟩ := env
  cases f <;> cases b <;> cases cD <;> cases cR <;>
    simp [mainRun]

/-- Claim C4: on a scanline whose bit range fits in one word
(`offset + charWidth <= 32`), `assembleCharacter` produces the row value
`(data[dword] >> (32 - charWidth - offset)) & ((1 << charWidth) - 1)`,
which is exactly the `charWidth` contiguous pixels starting at bit
`31 - offset` counted from the MSB of that word. -/
theorem assembleCharacter_single_word_path (data : Nat → Nat)
    (A cw ch d i b : Nat) (hi : i < ch)
    (hb : b = charStartBit A cw ch d + i * (d * 32))
    (hfit : b % 32 + cw ≤ 32) :
    (assembleCharacter data A cw ch d)[i]? = some (rowSingle data cw b) ∧
      rowSingle data cw b = data (b / 32) >>> (32 - cw - b % 32) % 2 ^ cw ∧
      rowSingle data cw b = bitsValue data b cw := by
  have hoff : b % 32 = charStartBit A cw ch d % 32 := by
    rw [hb]
    exact scanline_offset_const _ _ _
  refine ⟨?_, ?_, rowSingle_spec data cw b hfit⟩
  · rw [assembleCharacter_getElem data A cw ch d i hi, if_neg (by omega), hb]
  · have hmask : ((1 <<< cw) - 1) % 2 ^ 32 = 2 ^ cw - 1 := by
      rw [Nat.shiftLeft_eq, one_mul, Nat.mod_eq_of_lt]
      have h2 : 2 ^ cw ≤ 2 ^ 32 := Nat.pow_le_pow_right (by norm_num) (by omega)
      omega
    simp only [rowSingle, hmask, Nat.and_pow_two_sub_one_eq_mod]

/-- Witness for C4 at `data = 0`, `asciiCode = 0`, geometry `8 x 2`,
`dwordsPerLine = 16`, scanline 1 (bit 512, offset 0). -/
theorem assembleCharacter_single_word_path_witness :
    1 < 2 ∧ 512 = charStartBit 0 8 2 16 + 1 * (16 * 32) ∧ 512 % 32 + 8 ≤ 32 ∧
      ((assembleCharacter (fun _ => 0) 0 8 2 16)[1]? =
          some (rowSingle (fun _ => 0) 8 512) ∧
        rowSingle (fun _ => 0) 8 512 =
          (fun _ => (0 : Nat)) (512 / 32) >>> (32 - 8 - 512 % 32) % 2 ^ 8 ∧
        rowSingle (fun _ => 0) 8 512 = bitsValue (fun _ => 0) 512 8) :=
  ⟨by omega, by decide, by omega,
    assembleCharacter_single_word_path (fun _ => 0) 0 8 2 16 1 512
      (by omega) (by decide) (by omega)⟩

/-- Claim C2: on a scanline whose bit range straddles two words
(`offset + charWidth > 32`), `assembleCharacter` produces
`(tmp1 << (charWidth - (32-offset))) | (tmp2 >> (32 - (charWidth - (32-offset))))`
with `tmp1` the low `32 - offset` bits of word `dword` and `tmp2` the masked
high `charWidth - (32 - offset)` bits of word `dword + 1`; the result is the
bit-exact concatenation of the two fragments, first pixel in the MSB
position of the `charWidth`-bit row value. -/
theorem assembleCharacter_straddle_path (data : Nat → Nat)
    (A cw ch d i b : Nat) (hi : i < ch) (hcw : cw ≤ 32)
    (hb : b = charStartBit A cw ch d + i * (d * 32))
    (hstraddle : 32 < b % 32 + cw) :
    (assembleCharacter data A cw ch d)[i]? = some (rowStraddle data cw b) ∧
      rowStraddle data cw b =
        (((data (b / 32) &&& (((1 <<< (32 - b % 32)) - 1) % 2 ^ 32)) <<<
            (cw - (32 - b % 32))) % 2 ^ 32) |||
          ((data (b / 32 + 1) &&&
              ((((1 <<< (cw - (32 - b % 32))) - 1) <<<
                (32 - (cw - (32 - b % 32)))) % 2 ^ 32)) >>>
            (32 - (cw - (32 - b % 32)))) ∧
      rowStraddle data cw b = bitsValue data b cw := by
  have hoff : b % 32 = charStartBit A cw ch d % 32 := by
    rw [hb]
    exact scanline_offset_const _ _ _
  refine ⟨?_, rfl, rowStraddle_spec data cw b hstraddle hcw⟩
  rw [assembleCharacter_getElem data A cw ch d i hi, if_pos (by omega), hb]

/-- Witness for C2 at `data = 0`, `asciiCode = 6`, `charWidth = 5`,
`charHeight = 1`, `dwordsPerLine = 10`: bit 30, offset 30, straddling words
0 and 1. -/
theorem assembleCharacter_straddle_path_witness :
    0 < 1 ∧ 5 ≤ 32 ∧ 30 = charStartBit 6 5 1 10 + 0 * (10 * 32) ∧
      32 < 30 % 32 + 5 ∧
      ((assembleCharacter (fun _ => 0) 6 5 1 10)[0]? =
          some (rowStraddle (fun _ => 0) 5 30) ∧
        rowStraddle (fun _ => 0) 5 30 =
          ((((fun _ => (0 : Nat)) (30 / 32) &&& (((1 <<< (32 - 30 % 32)) - 1) % 2 ^ 32)) <<<
              (5 - (32 - 30 % 32))) % 2 ^ 32) |||
            (((fun _ => (0 : Nat)) (30 / 32 + 1) &&&
                ((((1 <<< (5 - (32 - 30 % 32))) - 1) <<<
                  (32 - (5 - (32 - 30 % 32)))) % 2 ^ 32)) >>>
              (32 - (5 - (32 - 30 % 32)))) ∧
        rowStraddle (fun _ => 0) 5 30 = bitsValue (fun _ => 0) 30 5) :=
  ⟨by omega, by omega, by decide, by omega,
    assembleCharacter_straddle_path (fun _ => 0) 6 5 1 10 0 30
      (by omega) (by omega) (by decide) (by omega)⟩

/-! ## The output stream, split into lines -/

lemma splitLines_cons (c : Char) (cs : List Char) :
    splitLines (c :: cs) =
      if c = '\n' then [] :: splitLines cs
      else
        match splitLines cs with
        | [] => [[c]]
        | l :: ls => (c :: l) :: ls := rfl

/-- A newline-free line followed by a newline contributes exactly one line. -/
lemma splitLines_line_append (l rest : List Char) (hl : '\n' ∉ l) :
    splitLines (l ++ '\n' :: rest) = l :: splitLines rest := by
  induction l with
  | nil =>
    rw [List.nil_append, splitLines_cons, if_pos rfl]
  | cons c t ih =>
    have hc : ¬ (c = '\n') := by
      intro h
      exact hl (h ▸ List.mem_cons_self c t)
    have ht : '\n' ∉ t := fun h => hl (List.mem_cons_of_mem c h)
    rw [List.cons_append, splitLines_cons, if_neg hc, ih ht]

/-- Splitting the concatenation of newline-terminated, newline-free lines
recovers the lines. -/
lemma splitLines_flatten_lines (lines : List (List Char))
    (h : ∀ l ∈ lines, '\n' ∉ l) :
    splitLines ((lines.map fun l => l ++ ['\n']).flatten) = lines := by
  induction lines with
  | nil => rfl
  | cons l ls ih =>
    rw [List.map_cons, List.flatten_cons]
    have happ : (l ++ ['\n']) ++ ((ls.map fun x => x ++ ['\n']).flatten)
        = l ++ ('\n' :: (ls.map fun x => x ++ ['\n']).flatten) := by
      simp
    rw [happ, splitLines_line_append l _ (h l (List.mem_cons_self l ls)),
      ih fun x hx => h x (List.mem_cons_of_mem l hx)]

/-- The digit lines of the whole output, in write order: for each ASCII code
0..127 in turn, the `charHeight` scanline rows rendered by `binDigits`. -/
def fontBinLines (data : Nat → Nat) (charWidth charHeight dwordsPerLine : Nat) :
    List (List Char) :=
  ((List.range 128).map fun i =>
    (assembleCharacter data i charWidth charHeight dwordsPerLine).map fun v =>
      binDigits v charWidth).flatten

lemma fontBinStream_eq (data : Nat → Nat) (cw ch d : Nat) :
    fontBinStream data cw ch d =
      ((fontBinLines data cw ch d).map fun l => l ++ ['\n']).flatten := by
  unfold fontBinStream fontBinLines toBinary
  rw [List.map_flatten, List.flatten_flatten, List.map_map, List.map_map]
  congr 1
  apply List.map_congr_left
  intro i hi
  simp only [Function.comp_apply, List.map_map]
  rfl

lemma assembleCharacter_length (data : Nat → Nat) (A cw ch d : Nat) :
    (assembleCharacter data A cw ch d).length = ch := by
  simp [assembleCharacter]

lemma fontBinLines_length (data : Nat → Nat) (cw ch d : Nat) :
    (fontBinLines data cw ch d).length = 128 * ch := by
  unfold fontBinLines
  rw [List.length_flatten, List.map_map]
  have hmap : ((List.length ∘ fun i =>
      (assembleCharacter data i cw ch d).map fun v => binDigits v cw))
      = fun _ => ch := by
    funext i
    simp [assembleCharacter]
  rw [hmap, List.map_const', List.sum_replicate, List.length_range, smul_eq_mul]

/-- Indexing into the flattening of equal-length blocks. -/
lemma getElem?_flatten_uniform {α : Type} (L : List (List α)) (m : Nat)
    (h : ∀ bl ∈ L, bl.length = m) : ∀ k, k < L.length * m →
    L.flatten[k]? = (L[k / m]?).bind fun bl => bl[k % m]? := by
  induction L with
  | nil =>
    intro k hk
    simp at hk
  | cons bl T ih =>
    intro k hk
    have hm : 0 < m := by
      rcases Nat.eq_zero_or_pos m with h0 | h0
      · subst h0
        simp at hk
      · exact h0
    have hbl : bl.length = m := h bl (List.mem_cons_self bl T)
    rw [List.flatten_cons]
    rcases Nat.lt_or_ge k m with hkm | hkm
    · rw [List.getElem?_append, if_pos (by omega), Nat.div_eq_of_lt hkm,
        List.getElem?_cons_zero, Nat.mod_eq_of_lt hkm]
      rfl
    · rw [List.getElem?_append, if_neg (by omega), hbl]
      have hk2 : k - m < T.length * m := by
        simp only [List.length_cons] at hk
        rw [Nat.add_mul, one_mul] at hk
        omega
      rw [ih (fun x hx => h x (List.mem_cons_of_mem bl hx)) (k - m) hk2]
      have hdiv : k / m = (k - m) / m + 1 := by
        conv_lhs => rw [← Nat.sub_add_cancel hkm]
        rw [Nat.add_div_right _ hm]
      have hmod : k % m = (k - m) % m := by
        conv_lhs => rw [← Nat.sub_add_cancel hkm]
        rw [Nat.add_mod_right]
      rw [hdiv, hmod, List.getElem?_cons_succ]

lemma fontBinLines_getElem (data : Nat → Nat) (cw ch d k : Nat)
    (hch : 0 < ch) (hk : k < 128 * ch) :
    (fontBinLines data cw ch d)[k]? =
      ((assembleCharacter data (k / ch) cw ch d)[k % ch]?).map fun v =>
        binDigits v cw := by
  unfold fontBinLines
  have hlen : ∀ bl ∈ (List.range 128).map fun i =>
      (assembleCharacter data i cw ch d).map fun v => binDigits v cw,
      bl.length = ch := by
    intro bl hbl
    obtain ⟨i, hi, hblv⟩ := List.mem_map.mp hbl
    rw [← hblv, List.length_map, assembleCharacter_length]
  have hk2 : k < (((List.range 128).map fun i =>
      (assembleCharacter data i cw ch d).map fun v => binDigits v cw).length) * ch := by
    rw [List.length_map, List.length_range]
    exact hk
  rw [getElem?_flatten_uniform _ ch hlen k hk2]
  have hkch : k / ch < 128 := (Nat.div_lt_iff_lt_mul hch).mpr hk
  rw [List.getElem?_map, List.getElem?_range hkch, Option.map_some', Option.some_bind,
    List.getElem?_map]

lemma binDigits_length (n w : Nat) : (binDigits n w).length = w := by
  simp [binDigits]

lemma binDigits_mem_01 (n w : Nat) : ∀ c ∈ binDigits n w, c = '0' ∨ c = '1' := by
  intro c hc
  obtain ⟨j, hj, hcv⟩ := List.mem_map.mp hc
  rw [← hcv]
  by_cases hbit : (n >>> (w - 1 - j)) &&& 1 = 1
  · right; rw [if_pos hbit]
  · left; rw [if_neg hbit]

lemma binDigits_no_newline (n w : Nat) : '\n' ∉ binDigits n w := by
  intro h
  rcases binDigits_mem_01 n w _ h with h0 | h0 <;> exact absurd h0 (by decide)

lemma binDigits_getElem (n w j : Nat) (hj : j < w) :
    (binDigits n w)[j]? =
      some (if (n >>> (w - 1 - j)) &&& 1 = 1 then '1' else '0') := by
  unfold binDigits
  rw [List.getElem?_map, List.getElem?_range hj, Option.map_some']

lemma splitLines_fontBinStream (data : Nat → Nat) (cw ch d : Nat) :
    splitLines (fontBinStream data cw ch d) = fontBinLines data cw ch d := by
  rw [fontBinStream_eq]
  apply splitLines_flatten_lines
  intro l hl
  obtain ⟨bl, hbl, hlbl⟩ := List.mem_flatten.mp hl
  obtain ⟨i, hi, hblv⟩ := List.mem_map.mp hbl
  rw [← hblv] at hlbl
  obtain ⟨v, hv, hlv⟩ := List.mem_map.mp hlbl
  rw [← hlv]
  exact binDigits_no_newline v cw

/-- Claim C5: on a successful run the output holds exactly `128 * charHeight`
newline-terminated lines; line `k` is the `binDigits` rendering (exactly
`charWidth` characters, each `'0'` or `'1'`, character `j` showing bit
`charWidth - 1 - j`) of the row value of scanline `k mod charHeight` of the
glyph for ASCII code `k / charHeight`, codes in increasing order, top
scanline first. -/
theorem fontBin_output_lines (data : Nat → Nat) (cw ch d : Nat) (hch : 0 < ch) :
    (splitLines (fontBinStream data cw ch d)).length = 128 * ch ∧
      ∀ k, k < 128 * ch →
        ∃ row, (assembleCharacter data (k / ch) cw ch d)[k % ch]? = some row ∧
          (splitLines (fontBinStream data cw ch d))[k]? = some (binDigits row cw) ∧
          (binDigits row cw).length = cw ∧
          (∀ c ∈ binDigits row cw, c = '0' ∨ c = '1') ∧
          ∀ j, j < cw → (binDigits row cw)[j]? =
            some (if (row >>> (cw - 1 - j)) &&& 1 = 1 then '1' else '0') := by
  rw [splitLines_fontBinStream]
  refine ⟨fontBinLines_length data cw ch d, ?_⟩
  intro k hk
  have hmod : k % ch < ch := Nat.mod_lt _ hch
  have hlen := assembleCharacter_length data (k / ch) cw ch d
  rcases hq : (assembleCharacter data (k / ch) cw ch d)[k % ch]? with _ | row
  · rw [List.getElem?_eq_none_iff, hlen] at hq
    omega
  · refine ⟨row, rfl, ?_, binDigits_length row cw, binDigits_mem_01 row cw,
      fun j hj => binDigits_getElem row cw j hj⟩
    rw [fontBinLines_getElem data cw ch d k hch hk, hq, Option.map_some']

/-- Witness for C5 at `data = 0`, geometry `8 x 2`, `dwordsPerLine = 16`,
checked at line `k = 17` (code 8, scanline 1). -/
theorem fontBin_output_lines_witness :
    0 < 2 ∧ (splitLines (fontBinStream (fun _ => 0) 8 2 16)).length = 128 * 2 ∧
      17 < 128 * 2 ∧
      ∃ row, (assembleCharacter (fun _ => 0) (17 / 2) 8 2 16)[17 % 2]? = some row ∧
        (splitLines (fontBinStream (fun _ => 0) 8 2 16))[17]? =
          some (binDigits row 8) ∧
        (binDigits row 8).length = 8 ∧
        (∀ c ∈ binDigits row 8, c = '0' ∨ c = '1') ∧
        ∀ j, j < 8 → (binDigits row 8)[j]? =
          some (if (row >>> (8 - 1 - j)) &&& 1 = 1 then '1' else '0') :=
  ⟨by omega, (fontBin_output_lines (fun _ => 0) 8 2 16 (by omega)).1, by omega,
    (fontBin_output_lines (fun _ => 0) 8 2 16 (by omega)).2 17 (by omega)⟩

/-! ## Round trip through a synthetic pixel buffer -/

/-- The pixel a synthetic font sheet holds at absolute bit index `b`: the
sheet is `2 * charHeight` scanlines of `64 * charWidth` pixels each; on
scanline `r` (`r = b / (64 * charWidth)`), the pixel belongs to glyph column
`x / charWidth` (`x = b % (64 * charWidth)`), i.e. to the glyph of ASCII
code `r / charHeight * 64 + x / charWidth`, and shows bit
`charWidth - 1 - x % charWidth` of that glyph's pattern for scanline
`r % charHeight`. -/
def glyphBit (pattern : Nat → Nat → Nat) (charWidth charHeight b : Nat) : Nat :=
  (pattern
      (b / (64 * charWidth) / charHeight * 64 + b % (64 * charWidth) / charWidth)
      (b / (64 * charWidth) % charHeight) >>>
    (charWidth - 1 - b % (64 * charWidth) % charWidth)) &&& 1

/-- A pixel buffer whose glyph cells hold prescribed per-scanline patterns:
word `w` packs pixels `w * 32 .. w * 32 + 31`, leftmost pixel in bit 31. -/
def syntheticBuffer (pattern : Nat → Nat → Nat) (charWidth charHeight : Nat) :
    Nat → Nat :=
  fun w => beValue ((List.range 32).map fun t =>
    glyphBit pattern charWidth charHeight (w * 32 + t))

/-- Reading any single pixel back out of the synthetic buffer gives the
prescribed pixel. -/
lemma bitAt_syntheticBuffer (pattern : Nat → Nat → Nat) (cw ch b : Nat) :
    bitAt (syntheticBuffer pattern cw ch) b = glyphBit pattern cw ch b := by
  unfold bitAt syntheticBuffer
  set l := (List.range 32).map fun t => glyphBit pattern cw ch (b / 32 * 32 + t)
    with hl
  have hlen : l.length = 32 := by simp [hl]
  have hbits : ∀ x ∈ l, x < 2 := by
    intro x hx
    obtain ⟨t, ht, hxv⟩ := List.mem_map.mp hx
    rw [← hxv]
    exact lt_of_le_of_lt Nat.and_le_right (by norm_num)
  have hj : 31 - b % 32 < l.length := by
    rw [hlen]
    omega
  rw [beValue_getBit l hbits _ hj, hlen]
  have hidx : 32 - 1 - (31 - b % 32) = b % 32 := by omega
  rw [hidx, List.getD_eq_getElem?_getD, hl, List.getElem?_map,
    List.getElem?_range (by omega : b % 32 < 32), Option.map_some']
  simp only [Option.getD_some]
  congr 1
  omega

/-- The pixel of the synthetic sheet at scanline `r`, glyph column `c`,
column bit `k`. -/
lemma glyphBit_at (pattern : Nat → Nat → Nat) (cw ch r c k : Nat)
    (hcw : 0 < cw) (hc : c < 64) (hk : k < cw) :
    glyphBit pattern cw ch (r * (64 * cw) + c * cw + k)
      = (pattern (r / ch * 64 + c) (r % ch) >>> (cw - 1 - k)) &&& 1 := by
  unfold glyphBit
  have hrem : c * cw + k < 64 * cw := by
    calc c * cw + k < c * cw + cw := by omega
      _ = (c + 1) * cw := by ring
      _ ≤ 64 * cw := Nat.mul_le_mul_right cw (by omega)
  have hb : r * (64 * cw) + c * cw + k = 64 * cw * r + (c * cw + k) := by ring
  rw [hb, Nat.mul_add_div (by positivity), Nat.mul_add_mod,
    Nat.div_eq_of_lt hrem, Nat.mod_eq_of_lt hrem, Nat.add_zero]
  have hdiv2 : (c * cw + k) / cw = c := by
    rw [mul_comm, Nat.mul_add_div hcw, Nat.div_eq_of_lt hk, Nat.add_zero]
  have hmod2 : (c * cw + k) % cw = k := by
    rw [mul_comm, Nat.mul_add_mod, Nat.mod_eq_of_lt hk]
  rw [hdiv2, hmod2]

/-- Reading the `charWidth` pixels of scanline `i` of the glyph for code `A`
out of the synthetic buffer yields the prescribed pattern value. -/
lemma bitsValue_syntheticBuffer (pattern : Nat → Nat → Nat) (cw ch A i : Nat)
    (hcw : 0 < cw) (hch : 0 < ch) (hA : A < 128) (hi : i < ch)
    (hpat : ∀ a s, pattern a s < 2 ^ cw) :
    bitsValue (syntheticBuffer pattern cw ch)
      (charStartBit A cw ch (2 * cw) + i * (2 * cw * 32)) cw = pattern A i := by
  unfold bitsValue
  have hmap : ((List.range cw).map fun k =>
      bitAt (syntheticBuffer pattern cw ch)
        (charStartBit A cw ch (2 * cw) + i * (2 * cw * 32) + k))
      = (List.range cw).map fun k => (pattern A i >>> (cw - 1 - k)) &&& 1 := by
    apply List.map_congr_left
    intro k hk
    rw [List.mem_range] at hk
    rw [bitAt_syntheticBuffer]
    rcases Nat.lt_or_ge A 64 with hA64 | hA64
    · have hstart : charStartBit A cw ch (2 * cw) + i * (2 * cw * 32) + k
          = i * (64 * cw) + A * cw + k := by
        unfold charStartBit
        rw [if_pos hA64, Nat.mod_eq_of_lt hA64]
        ring
      rw [hstart, glyphBit_at pattern cw ch i A k hcw hA64 hk,
        Nat.div_eq_of_lt hi, Nat.mod_eq_of_lt hi, Nat.zero_mul, Nat.zero_add]
    · have hstart : charStartBit A cw ch (2 * cw) + i * (2 * cw * 32) + k
          = (ch + i) * (64 * cw) + (A - 64) * cw + k := by
        unfold charStartBit
        rw [if_neg (by omega)]
        have hmod : A % 64 = A - 64 := by omega
        rw [hmod]
        ring
      rw [hstart, glyphBit_at pattern cw ch (ch + i) (A - 64) k hcw (by omega) hk]
      have hdiv : (ch + i) / ch = 1 := by
        rw [Nat.add_comm ch i, Nat.add_div_right i hch, Nat.div_eq_of_lt hi]
      have hmodi : (ch + i) % ch = i := by
        rw [Nat.add_mod_left, Nat.mod_eq_of_lt hi]
      rw [hdiv, hmodi]
      have hcode : 1 * 64 + (A - 64) = A := by omega
      rw [hcode]
  rw [hmap, beValue_reconstruct, Nat.mod_eq_of_lt (hpat A i)]

/-- Claim C3: for valid geometry (`1 <= charWidth <= 32`, `charHeight >= 1`,
`dwordsPerLine = charWidth * 64 / 32`), running `assembleCharacter` on a
pixel buffer whose glyph cells hold known per-scanline patterns reproduces
every pattern bit-for-bit, for every ASCII code, through whichever code path
(single-word or straddling) applies. -/
theorem assembleCharacter_roundtrip (pattern : Nat → Nat → Nat) (cw ch d A : Nat)
    (hcw1 : 1 ≤ cw) (hcw : cw ≤ 32) (hch : 1 ≤ ch) (hd : d = cw * 64 / 32)
    (hpat : ∀ a s, pattern a s < 2 ^ cw) (hA : A < 128) :
    assembleCharacter (syntheticBuffer pattern cw ch) A cw ch d =
      (List.range ch).map (pattern A) := by
  have hd2 : d = 2 * cw := by omega
  subst hd2
  apply List.ext_getElem?
  intro n
  rcases Nat.lt_or_ge n ch with hn | hn
  · rw [assembleCharacter_getElem_bitsValue (syntheticBuffer pattern cw ch)
        A cw ch (2 * cw) n hn hcw,
      List.getElem?_map, List.getElem?_range hn, Option.map_some',
      bitsValue_syntheticBuffer pattern cw ch A n (by omega) (by omega) hA hn hpat]
  · have h1 : (assembleCharacter (syntheticBuffer pattern cw ch) A cw ch
        (2 * cw)).length ≤ n := by
      rw [assembleCharacter_length]
      exact hn
    have h2 : (((List.range ch).map (pattern A)).length) ≤ n := by
      rw [List.length_map, List.length_range]
      exact hn
    rw [List.getElem?_eq_none h1, List.getElem?_eq_none h2]

/-- Witness for C3 at the all-`10101010` pattern, geometry `8 x 2`,
`dwordsPerLine = 16`, ASCII code 65. -/
theorem assembleCharacter_roundtrip_witness :
    1 ≤ 8 ∧ 8 ≤ 32 ∧ 1 ≤ 2 ∧ 16 = 8 * 64 / 32 ∧
      (∀ a s : Nat, (fun _ _ => (170 : Nat)) a s < 2 ^ 8) ∧ 65 < 128 ∧
      assembleCharacter (syntheticBuffer (fun _ _ => (170 : Nat)) 8 2) 65 8 2 16 =
        (List.range 2).map ((fun _ _ => (170 : Nat)) 65) :=
  ⟨by omega, by omega, by omega, by omega, fun _ _ => by norm_num, by omega,
    assembleCharacter_roundtrip (fun _ _ => (170 : Nat)) 8 2 16 65
      (by omega) (by omega) (by omega) (by omega) (fun _ _ => by norm_num)
      (by omega)⟩

end FontToBin
